import Mathlib

set_option maxHeartbeats 1000000

set_option maxRecDepth 10000

/-! Verification of the overlay sandbox engine (`src/sandbox/overlayfs.py`).

Strings of the Python source are embedded as lists of characters, paths
included.  Each definition below is a direct shallow embedding of the
corresponding Python function; environment-dependent effects (mounts,
`rmtree`, `setfattr`) are modelled by explicit success flags or by action
traces. -/

/-- Characters of a filesystem path or of a line of program output. -/
abbrev Str := List Char

/-! ### Embedding of `posixpath.normpath` (used by `os.path.normpath`) -/

/-- Python `path.split("/")`: splits into components keeping empty ones. -/
def splitSlash : Str → List Str
  | [] => [[]]
  | c :: rest =>
    match splitSlash rest with
    | [] => [[]]
    | w :: ws => if c = '/' then [] :: w :: ws else (c :: w) :: ws

/-- Python `"/".join(comps)`. -/
def joinSlash : List Str → Str
  | [] => []
  | [w] => w
  | w :: ws => w ++ '/' :: joinSlash ws

/-- The component loop of `posixpath.normpath`: drops empty and `.`
components and resolves `..` against the accumulated components. -/
def normLoop (hasSlashes : Bool) : List Str → List Str → List Str
  | acc, [] => acc
  | acc, comp :: rest =>
    if comp = [] ∨ comp = ['.'] then normLoop hasSlashes acc rest
    else if comp ≠ ['.', '.'] ∨ (hasSlashes = false ∧ acc = []) ∨
        (acc ≠ [] ∧ acc.getLast? = some ['.', '.']) then
      normLoop hasSlashes (acc ++ [comp]) rest
    else if acc ≠ [] then normLoop hasSlashes acc.dropLast rest
    else normLoop hasSlashes acc rest

/-- Embedding of `posixpath.normpath`, including the special handling of
one, two and three-or-more leading slashes. -/
def normpath (p : Str) : Str :=
  if p = [] then ['.']
  else
    let slashes : Nat :=
      if p.take 1 = ['/'] then
        if p.take 2 = ['/', '/'] ∧ p.take 3 ≠ ['/', '/', '/'] then 2 else 1
      else 0
    let body := joinSlash (normLoop (slashes != 0) [] (splitSlash p))
    let out := List.replicate slashes '/' ++ body
    if out = [] then ['.'] else out

/-! ### Embedding of the tail of `OverlayFS.run_command`
(`overlayfs.py` lines 184-197): scanning captured stdout for the
`FINAL_PWD:` sentinel and updating `current_dir`. -/

/-- The sentinel marking the final working directory in captured stdout. -/
def finalPwdTag : Str := "FINAL_PWD:".toList

/-- Lines 190-195 of `run_command`: normalize the reported path and adopt
it as `current_dir` when it passes the `str.startswith(base_dir)` test. -/
def applyFinalPwd (baseDir currentDir reported : Str) : Str :=
  let np := normpath reported
  if baseDir <+: np then np else currentDir

/-- Lines 185-197 of `run_command`: scan the stdout lines for the first
line starting with the sentinel, pop it, and update `current_dir` from it;
the `break` stops the scan after the first match.  Returns the new
`current_dir` and the lines that remain in the returned stdout. -/
def processLines (baseDir currentDir : Str) : List Str → Str × List Str
  | [] => (currentDir, [])
  | l :: ls =>
    if finalPwdTag <+: l then
      (applyFinalPwd baseDir currentDir (l.drop 10), ls)
    else
      let r := processLines baseDir currentDir ls
      (r.1, l :: r.2)

/-- The spec notion of a path being a descendant of `base_dir`: equal to it
or strictly below it. -/
def descendsFrom (base p : Str) : Prop := p = base ∨ base ++ ['/'] <+: p

instance (base p : Str) : Decidable (descendsFrom base p) := by
  unfold descendsFrom; infer_instance

def cexBase : Str := "/tmp/t".toList

def cexReported : Str := "/tmp/txyz".toList

def cexSub : Str := "/tmp/t/sub".toList

/-- C1 (counterexample): with `base_dir = "/tmp/t"`, a command reporting
`FINAL_PWD:/tmp/txyz` makes `run_command` update `current_dir` to
`/tmp/txyz`, which is not a descendant of `base_dir`: the code's
`str.startswith` test also accepts sibling paths that merely extend
`base_dir` as a string, refuting the claimed equivalence. -/
theorem pwd_update_escapes_base :
    processLines cexBase cexBase [finalPwdTag ++ cexReported] = (cexReported, [])
    ∧ cexReported ≠ cexBase
    ∧ ¬ descendsFrom cexBase cexReported := by decide

/-- C1 (amended): `current_dir` is updated to the normalized reported path
exactly when `base_dir` is a string prefix of that normalized path; every
descendant of `base_dir` is accepted, but so are non-descendant paths that
extend `base_dir` as a plain string. -/
theorem applyFinalPwd_base_string_check (baseDir currentDir reported : Str) :
    (descendsFrom baseDir (normpath reported) →
      applyFinalPwd baseDir currentDir reported = normpath reported)
    ∧ (baseDir <+: normpath reported →
      applyFinalPwd baseDir currentDir reported = normpath reported)
    ∧ (¬ baseDir <+: normpath reported →
      applyFinalPwd baseDir currentDir reported = currentDir) := by
  refine ⟨?_, ?_, ?_⟩
  · intro h
    have hp : baseDir <+: normpath reported := by
      cases h with
      | inl h => exact h ▸ ⟨[], List.append_nil _⟩
      | inr h =>
        obtain ⟨t, ht⟩ := h
        exact ⟨'/' :: t, by simpa [List.append_assoc] using ht⟩
    unfold applyFinalPwd
    rw [if_pos hp]
  · intro h
    unfold applyFinalPwd
    rw [if_pos h]
  · intro h
    unfold applyFinalPwd
    rw [if_neg h]

/-- Witness for the amended C1 theorem at a concrete descendant path. -/
theorem applyFinalPwd_base_string_check_w :
    applyFinalPwd cexBase cexBase cexSub = normpath cexSub :=
  (applyFinalPwd_base_string_check cexBase cexBase cexSub).1 (by decide)

/-- C10: scanning stdout removes exactly the first line carrying the
`FINAL_PWD:` sentinel and decides `current_dir` from that line alone;
later sentinel lines are returned verbatim and never affect `current_dir`;
when no line carries the sentinel, stdout and `current_dir` are unchanged. -/
theorem processLines_first_tag_only (baseDir currentDir : Str)
    (pre post : List Str) (l : Str)
    (hpre : ∀ x ∈ pre, ¬ finalPwdTag <+: x) (hl : finalPwdTag <+: l) :
    processLines baseDir currentDir (pre ++ l :: post)
      = (applyFinalPwd baseDir currentDir (l.drop 10), pre ++ post)
    ∧ ∀ ls : List Str, (∀ x ∈ ls, ¬ finalPwdTag <+: x) →
        processLines baseDir currentDir ls = (currentDir, ls) := by
  constructor
  · induction pre with
    | nil => simp [processLines, hl]
    | cons x xs ih =>
      have hx : ¬ finalPwdTag <+: x := hpre x (by simp)
      have ihh := ih (fun y hy => hpre y (by simp [hy]))
      simp [processLines, hx, ihh]
  · intro ls
    induction ls with
    | nil => intro _; simp [processLines]
    | cons x xs ih =>
      intro h
      have hx : ¬ finalPwdTag <+: x := h x (by simp)
      have ihh := ih (fun y hy => h y (by simp [hy]))
      simp [processLines, hx, ihh]

/-- Witness for C10: one ordinary line, a sentinel line, then a second
sentinel line that is kept verbatim. -/
theorem processLines_first_tag_only_w :
    processLines cexBase cexBase
        ([['a']] ++ (finalPwdTag ++ cexSub) :: [finalPwdTag ++ ['b']])
      = (applyFinalPwd cexBase cexBase ((finalPwdTag ++ cexSub).drop 10),
          [['a']] ++ [finalPwdTag ++ ['b']]) :=
  (processLines_first_tag_only cexBase cexBase [['a']] [finalPwdTag ++ ['b']]
    (finalPwdTag ++ cexSub) (by decide) (by decide)).1

/-! ### Embedding of the command-string construction in `run_command`
(`overlayfs.py` lines 158-175). -/

/-- Python `part.replace("'", "'\\''")`: every single quote becomes the
four characters quote, backslash, quote, quote. -/
def shellEscQuotes : Str → Str
  | [] => []
  | c :: rest =>
    if c = '\'' then '\'' :: '\\' :: '\'' :: '\'' :: shellEscQuotes rest
    else c :: shellEscQuotes rest

/-- Python `" ".join(parts)`. -/
def joinSpace : List Str → Str
  | [] => []
  | [w] => w
  | w :: ws => w ++ ' ' :: joinSpace ws

/-- The four-character replacement the code substitutes for a quote. -/
def codeQuoteSeq : Str := "'\\''".toList

def tmplA : Str := "\n        set -e\n        chroot '".toList

def tmplB : Str := "' bash -c \"cd '".toList

def tmplC : Str := "' && ".toList

def tmplD : Str := " && echo FINAL_PWD:\\$(pwd)\"\n        ".toList

/-- The `cmd_str` f-string of `run_command`: merged dir and current dir are
interpolated between literal single quotes, the joined argv parts are
interpolated bare. -/
def buildCmdStr (merged cur : Str) (cmd : List Str) : Str :=
  tmplA ++ shellEscQuotes merged ++ tmplB ++ shellEscQuotes cur ++ tmplC
    ++ joinSpace (cmd.map shellEscQuotes) ++ tmplD

/-- The five-character sequence the spec describes: close the quote, emit a
double-quote-escaped quote, reopen. -/
def fiveSeq : Str := "'\"'\"'".toList

/-- Replacement of each embedded single quote by `fiveSeq`, following the
spec wording. -/
def specReplaceQuote : Str → Str
  | [] => []
  | c :: rest =>
    if c = '\'' then fiveSeq ++ specReplaceQuote rest else c :: specReplaceQuote rest

/-- Shell escaping as the spec describes it: wrap in single quotes with the
five-character replacement inside. -/
def specShellQuote (s : Str) : Str := '\'' :: specReplaceQuote s ++ ['\'']

def cexMerged : Str := "/m".toList

def cexCur : Str := "/c".toList

def cexArg : Str := "x".toList

/-- C7 (counterexample): the argv element `x` is not interpolated enclosed
in single quotes anywhere in the built command string, and the code's
replacement for an embedded quote is not the five-character sequence the
claim describes. -/
theorem argv_not_single_quoted :
    ¬ specShellQuote cexArg <:+: buildCmdStr cexMerged cexCur [cexArg]
    ∧ shellEscQuotes ['\''] ≠ fiveSeq := by decide

def tmplA1 : Str := "\n        set -e\n        chroot ".toList

def tmplB1 : Str := " bash -c \"cd ".toList

def tmplC1 : Str := " && ".toList

/-- C7 (amended): the merged directory and current directory are
interpolated enclosed in single quotes; every interpolated string has each
embedded single quote replaced by the four-character sequence
quote-backslash-quote-quote; the argv elements receive only that
replacement and are joined by spaces without enclosing quotes. -/
theorem buildCmdStr_quoting (merged cur : Str) (cmd : List Str) :
    ('\'' :: shellEscQuotes merged ++ ['\'']) <:+: buildCmdStr merged cur cmd
    ∧ ('\'' :: shellEscQuotes cur ++ ['\'']) <:+: buildCmdStr merged cur cmd
    ∧ joinSpace (cmd.map shellEscQuotes) <:+: buildCmdStr merged cur cmd
    ∧ codeQuoteSeq.length = 4
    ∧ ∀ s : Str,
        shellEscQuotes s = s.flatMap (fun c => if c = '\'' then codeQuoteSeq else [c]) := by
  have hA : tmplA = tmplA1 ++ ['\''] := by decide
  have hB : tmplB = '\'' :: (tmplB1 ++ ['\'']) := by decide
  have hC : tmplC = '\'' :: tmplC1 := by decide
  refine ⟨?_, ?_, ?_, by decide, ?_⟩
  · refine ⟨tmplA1, tmplB1 ++ '\'' :: (shellEscQuotes cur
      ++ '\'' :: (tmplC1 ++ (joinSpace (cmd.map shellEscQuotes) ++ tmplD))), ?_⟩
    simp [buildCmdStr, hA, hB, hC, List.append_assoc]
  · refine ⟨tmplA1 ++ '\'' :: (shellEscQuotes merged ++ '\'' :: tmplB1),
      tmplC1 ++ (joinSpace (cmd.map shellEscQuotes) ++ tmplD), ?_⟩
    simp [buildCmdStr, hA, hB, hC, List.append_assoc]
  · exact ⟨tmplA ++ shellEscQuotes merged ++ tmplB ++ shellEscQuotes cur ++ tmplC,
      tmplD, by simp [buildCmdStr]⟩
  · intro s
    induction s with
    | nil => rfl
    | cons c cs ih =>
      by_cases hc : c = '\'' <;> simp [shellEscQuotes, hc, ih, codeQuoteSeq]

/-! ### Embedding of `_apply_overlay_changes` (`overlayfs.py` lines 437-496):
two walks over an overlay's upper layer, deletions first, then copies. -/

/-- Arithmetic form of Python `stat.S_IFMT(mode) = mode & 0o170000`
(bits 12 to 15 of the mode). -/
def S_IFMT (mode : Nat) : Nat := mode / 4096 % 16 * 4096

/-- Python `stat.S_ISCHR(mode)`: the file-type bits equal `S_IFCHR`
(`0o020000`). -/
def S_ISCHR (mode : Nat) : Bool := S_IFMT mode == 8192

/-- One file entry met while walking an overlay's upper layer: its path
relative to the upper dir, its stat mode and device number, its content. -/
structure UpperFile where
  relPath : Str
  mode : Nat
  rdev : Nat
  content : Str
deriving DecidableEq

/-- The lower tree as a finite map from paths to file contents. -/
abbrev FileMap := List (Str × Str)

/-- First pass of `_apply_overlay_changes` for one file entry: a character
device (the rdev is never inspected) removes the corresponding lower path. -/
def deletionStep (acc : FileMap) (f : UpperFile) : FileMap :=
  if S_ISCHR f.mode then acc.filter (fun e => e.1 != f.relPath) else acc

/-- First pass of `_apply_overlay_changes` over all file entries. -/
def deletionPass (upper : List UpperFile) (lower : FileMap) : FileMap :=
  upper.foldl deletionStep lower

/-- Model of `shutil.copy2`: create or overwrite the destination file. -/
def setFile : FileMap → Str → Str → FileMap
  | [], p, c => [(p, c)]
  | e :: es, p, c => if e.1 = p then (p, c) :: es else e :: setFile es p c

/-- Second pass of `_apply_overlay_changes` for one file entry: character
devices are skipped, every other file is copied to the lower tree. -/
def copyStep (acc : FileMap) (f : UpperFile) : FileMap :=
  if S_ISCHR f.mode then acc else setFile acc f.relPath f.content

/-- Second pass of `_apply_overlay_changes` over all file entries. -/
def copyPass (upper : List UpperFile) (fm : FileMap) : FileMap :=
  upper.foldl copyStep fm

/-- Whole of `_apply_overlay_changes`: deletions first, then copies. -/
def applyOverlayChanges (upper : List UpperFile) (lower : FileMap) : FileMap :=
  copyPass upper (deletionPass upper lower)

def cexRel : Str := "a".toList

/-- An upper-layer entry that is a character device with a nonzero device
number, like a copied-up `/dev/tty` (rdev `0o403`). -/
def cexCharDev : UpperFile := ⟨cexRel, 8192, 259, []⟩

/-- C2 (counterexample): a character device with rdev 259 is still treated
as a whiteout: the lower file `a` is removed and nothing is copied back,
refuting the claim that only rdev-0 character devices are deletions and
that every other entry is copied. -/
theorem chardev_nonzero_rdev_deletes :
    applyOverlayChanges [cexCharDev] [(cexRel, ['o'])] = []
    ∧ cexCharDev.rdev ≠ 0 := by decide

lemma keys_filter_ne_not_mem (p : Str) (l : FileMap) :
    p ∉ (l.filter (fun e => e.1 != p)).map Prod.fst := by
  simp [List.mem_map, List.mem_filter]

lemma keys_filter_mono {p : Str} {l : FileMap} (q : Str × Str → Bool)
    (h : p ∉ l.map Prod.fst) : p ∉ (l.filter q).map Prod.fst := by
  intro hc
  apply h
  simp only [List.mem_map] at hc ⊢
  obtain ⟨x, hxm, hx1⟩ := hc
  exact ⟨x, (List.mem_filter.mp hxm).1, hx1⟩

lemma deletionStep_keys_mono (p : Str) (acc : FileMap) (f : UpperFile)
    (h : p ∉ acc.map Prod.fst) : p ∉ (deletionStep acc f).map Prod.fst := by
  unfold deletionStep
  split
  · exact keys_filter_mono _ h
  · exact h

lemma deletionPass_keys_mono (upper : List UpperFile) :
    ∀ (acc : FileMap) (p : Str), p ∉ acc.map Prod.fst →
      p ∉ (upper.foldl deletionStep acc).map Prod.fst := by
  induction upper with
  | nil => intro acc p h; exact h
  | cons f rest ih =>
    intro acc p h
    simp only [List.foldl_cons]
    exact ih _ p (deletionStep_keys_mono p acc f h)

lemma deletionPass_removes (upper : List UpperFile) :
    ∀ (lower : FileMap) (f : UpperFile), f ∈ upper → S_ISCHR f.mode = true →
      f.relPath ∉ (deletionPass upper lower).map Prod.fst := by
  induction upper with
  | nil => intro lower f hf; cases hf
  | cons g rest ih =>
    intro lower f hf hchr
    rcases List.mem_cons.mp hf with rfl | hmem
    · have hstep : f.relPath ∉ (deletionStep lower f).map Prod.fst := by
        unfold deletionStep
        rw [if_pos hchr]
        exact keys_filter_ne_not_mem f.relPath lower
      simp only [deletionPass, List.foldl_cons]
      exact deletionPass_keys_mono rest _ _ hstep
    · simp only [deletionPass, List.foldl_cons]
      exact ih _ f hmem hchr

lemma keys_setFile_self (l : FileMap) (p c : Str) :
    p ∈ (setFile l p c).map Prod.fst := by
  induction l with
  | nil => simp [setFile]
  | cons e es ih =>
    by_cases he : e.1 = p
    · simp [setFile, he]
    · simp [setFile, he, ih]

lemma keys_setFile_mono (p c q : Str) (l : FileMap)
    (h : q ∈ l.map Prod.fst) : q ∈ (setFile l p c).map Prod.fst := by
  induction l with
  | nil => simp at h
  | cons e es ih =>
    simp only [List.map_cons, List.mem_cons] at h
    by_cases he : e.1 = p
    · rcases h with h | h
      · simp [setFile, he, h ▸ he]
      · simp [setFile, he, List.mem_map] at h ⊢
        right
        exact h
    · rcases h with h | h
      · simp [setFile, he, h]
      · simp [setFile, he]
        right
        simpa using ih (by simpa using h)

lemma copyStep_keys_mono (q : Str) (acc : FileMap) (f : UpperFile)
    (h : q ∈ acc.map Prod.fst) : q ∈ (copyStep acc f).map Prod.fst := by
  unfold copyStep
  split
  · exact h
  · exact keys_setFile_mono _ _ _ _ h

lemma copyPass_keys_mono (upper : List UpperFile) :
    ∀ (acc : FileMap) (q : Str), q ∈ acc.map Prod.fst →
      q ∈ (upper.foldl copyStep acc).map Prod.fst := by
  induction upper with
  | nil => intro acc q h; exact h
  | cons f rest ih =>
    intro acc q h
    simp only [List.foldl_cons]
    exact ih _ q (copyStep_keys_mono q acc f h)

lemma copyPass_adds (upper : List UpperFile) :
    ∀ (acc : FileMap) (f : UpperFile), f ∈ upper → S_ISCHR f.mode = false →
      f.relPath ∈ (upper.foldl copyStep acc).map Prod.fst := by
  induction upper with
  | nil => intro acc f hf; cases hf
  | cons g rest ih =>
    intro acc f hf hreg
    rcases List.mem_cons.mp hf with rfl | hmem
    · have hstep : f.relPath ∈ (copyStep acc f).map Prod.fst := by
        unfold copyStep
        rw [if_neg (by simp [hreg])]
        exact keys_setFile_self acc f.relPath f.content
      simp only [List.foldl_cons]
      exact copyPass_keys_mono rest _ _ hstep
    · simp only [List.foldl_cons]
      exact ih _ f hmem hreg

/-- C2 (amended): during change application an upper-layer file entry is
classified as a deletion exactly when it is a character device, whatever
its device number: such a path is removed by the deletion pass, and every
non-character-device file entry is copied into the lower tree. -/
theorem applyChanges_chardev_classification (upper : List UpperFile)
    (lower : FileMap) (f : UpperFile) (hf : f ∈ upper) :
    (S_ISCHR f.mode = true → f.relPath ∉ (deletionPass upper lower).map Prod.fst)
    ∧ (S_ISCHR f.mode = false →
        f.relPath ∈ (applyOverlayChanges upper lower).map Prod.fst) := by
  constructor
  · intro hchr
    exact deletionPass_removes upper lower f hf hchr
  · intro hreg
    unfold applyOverlayChanges copyPass
    exact copyPass_adds upper _ f hf hreg

/-- An ordinary regular-file entry (mode `0o100644`). -/
def cexRegFile : UpperFile := ⟨['b'], 33188, 0, ['z']⟩

/-- Witness for the amended C2 theorem: a regular file is copied. -/
theorem applyChanges_chardev_classification_w :
    (['b'] : Str) ∈ (applyOverlayChanges [cexRegFile] []).map Prod.fst :=
  (applyChanges_chardev_classification [cexRegFile] [] cexRegFile
    (by decide)).2 (by decide)

/-! ### State-machine model of `OverlayFS.__init__` and `cleanup`
(`overlayfs.py` lines 85-129 and 397-435).  Mount, unmount and `rmtree`
are modelled as succeeding; the actions a call performs are returned as an
explicit trace. -/

/-- The mutable session attributes relevant to setup and teardown. -/
structure SessionState where
  mounted : Bool
  overlayMounts : List (Str × Str × Str)
  tempRootExists : Bool
deriving DecidableEq

/-- Externally visible actions performed by `cleanup`. -/
inductive CleanupAction where
  | applyChanges (upperDir lowerDir : Str)
  | unmountMp (mountPoint : Str)
  | removeScratch
deriving DecidableEq

/-- Embedding of `OverlayFS.cleanup`: apply changes from every overlay when
requested and still mounted; then unmount every recorded mount point in
reverse order, reset `mounted` and clear the overlay list; finally remove
the scratch directory if it still exists. -/
def cleanup (keepChanges : Bool) (s : SessionState) :
    SessionState × List CleanupAction :=
  let applyActs := if keepChanges && s.mounted then
      s.overlayMounts.map (fun ov => CleanupAction.applyChanges ov.1 ov.2.1)
    else []
  let umountActs := if s.mounted then
      s.overlayMounts.reverse.map (fun ov => CleanupAction.unmountMp ov.2.2)
    else []
  let s1 := if s.mounted then { s with mounted := false, overlayMounts := [] } else s
  let rmActs := if s1.tempRootExists then [CleanupAction.removeScratch] else []
  let s2 := { s1 with tempRootExists := false }
  (s2, applyActs ++ umountActs ++ rmActs)

/-- Outcome of `OverlayFS.__init__`: either a live session or a raised
error, together with what the constructor left behind on disk. -/
structure InitOutcome where
  session : Option SessionState
  scratchRootExists : Bool
  mountsCreated : List Str
deriving DecidableEq

def rootSlash : Str := "/".toList

/-- Embedding of `OverlayFS.__init__` after the scratch directories have
been created: when the root overlay mount succeeds the session records the
root overlay followed by the submount overlays; when it fails the
constructor raises, creating no mounts and leaving the scratch directories
in place. -/
def initSession (upperDir mergedDir : Str) (rootMountOk : Bool)
    (subOverlays : List (Str × Str × Str)) : InitOutcome :=
  if rootMountOk then
    let sess : SessionState :=
      { mounted := true,
        overlayMounts := (upperDir, rootSlash, mergedDir) :: subOverlays,
        tempRootExists := true }
    { session := some sess,
      scratchRootExists := true,
      mountsCreated := mergedDir :: subOverlays.map (fun ov => ov.2.2) }
  else
    { session := none, scratchRootExists := true, mountsCreated := [] }

def cexUpperDir : Str := "/tmp/o/upper".toList

def cexMergedDir : Str := "/tmp/o/merged".toList

/-- C3 (counterexample): when the root overlay mount fails during `open`,
the constructor raises without a session; no mount was created, but the
scratch root is left on disk, refuting the claim that it is removed on
every exit path. -/
theorem mount_failure_leaks_scratch :
    (initSession cexUpperDir cexMergedDir false []).session = none
    ∧ (initSession cexUpperDir cexMergedDir false []).scratchRootExists = true
    ∧ (initSession cexUpperDir cexMergedDir false []).mountsCreated = [] := by
  decide

/-- Recognizer for unmount actions in a cleanup trace. -/
def isUnmountAct : CleanupAction → Bool
  | .unmountMp _ => true
  | _ => false

lemma filter_unmount_of_apply (l : List (Str × Str × Str)) :
    (l.map (fun ov => CleanupAction.applyChanges ov.1 ov.2.1)).filter isUnmountAct
      = [] := by
  induction l with
  | nil => rfl
  | cons e es ih => simp [isUnmountAct, ih]

lemma filter_unmount_of_unmount (l : List (Str × Str × Str)) :
    (l.map (fun ov => CleanupAction.unmountMp ov.2.2)).filter isUnmountAct
      = l.map (fun ov => CleanupAction.unmountMp ov.2.2) := by
  induction l with
  | nil => rfl
  | cons e es ih => simp [isUnmountAct, ih]

/-- C3 (amended): `cleanup` on any session state unmounts every recorded
mount point in reverse order, clears the session, and removes the scratch
root; but the failing-mount path of `open` itself removes nothing. -/
theorem cleanup_teardown (keep : Bool) (s : SessionState) :
    (cleanup keep s).1.mounted = false
    ∧ (cleanup keep s).1.tempRootExists = false
    ∧ (s.mounted = true → (cleanup keep s).1.overlayMounts = [])
    ∧ ((cleanup keep s).2.filter isUnmountAct
        = if s.mounted then
            s.overlayMounts.reverse.map (fun ov => CleanupAction.unmountMp ov.2.2)
          else [])
    ∧ (s.tempRootExists = true → CleanupAction.removeScratch ∈ (cleanup keep s).2) := by
  rcases s with ⟨m, ovs, t⟩
  cases m <;> cases t <;> cases keep <;>
    simp [cleanup, isUnmountAct, List.filter_append, List.filter_reverse,
      filter_unmount_of_apply, filter_unmount_of_unmount]

def cexSession : SessionState :=
  ⟨true, [(cexUpperDir, rootSlash, cexMergedDir)], true⟩

/-- Witness for the amended C3 theorem on a mounted session. -/
theorem cleanup_teardown_w :
    CleanupAction.removeScratch ∈ (cleanup false cexSession).2 :=
  (cleanup_teardown false cexSession).2.2.2.2 rfl

/-- C8: `cleanup` is idempotent: a second call on the state left by a
first call performs no action at all and leaves the state unchanged. -/
theorem cleanup_idempotent (k1 k2 : Bool) (s : SessionState) :
    cleanup k2 (cleanup k1 s).1 = ((cleanup k1 s).1, []) := by
  rcases s with ⟨m, ovs, t⟩
  cases m <;> cases t <;> cases k1 <;> cases k2 <;> simp [cleanup]

/-! ### Embedding of `_bind_submounts` (`overlayfs.py` lines 205-254). -/

/-- Python string comparison: lexicographic order on code points, as used
by `sorted(...)` on the findmnt targets. -/
def lexLe : Str → Str → Bool
  | [], _ => true
  | _ :: _, [] => false
  | a :: as, b :: bs => if a < b then true else if b < a then false else lexLe as bs

lemma lexLe_total : ∀ a b : Str, lexLe a b = true ∨ lexLe b a = true := by
  intro a
  induction a with
  | nil => intro b; left; simp [lexLe]
  | cons c cs ih =>
    intro b
    cases b with
    | nil => right; simp [lexLe]
    | cons d ds =>
      by_cases h1 : c < d
      · left; simp [lexLe, h1]
      · by_cases h2 : d < c
        · right; simp [lexLe, h2]
        · rcases ih ds with h | h
          · left; simp [lexLe, h1, h2, h]
          · right; simp [lexLe, h1, h2, h]

lemma lexLe_trans : ∀ a b c : Str,
    lexLe a b = true → lexLe b c = true → lexLe a c = true := by
  intro a
  induction a with
  | nil => intro b c _ _; simp [lexLe]
  | cons x xs ih =>
    intro b c hab hbc
    cases b with
    | nil => simp [lexLe] at hab
    | cons y ys =>
      cases c with
      | nil => simp [lexLe] at hbc
      | cons z zs =>
        simp only [lexLe] at hab hbc ⊢
        by_cases hxy : x < y
        · by_cases hyz : y < z
          · rw [if_pos (hxy.trans hyz)]
          · by_cases hzy : z < y
            · rw [if_neg hyz, if_pos hzy] at hbc
              exact absurd hbc (by simp)
            · have heq : y = z := le_antisymm (not_lt.mp hzy) (not_lt.mp hyz)
              rw [if_pos (heq ▸ hxy)]
        · rw [if_neg hxy] at hab
          by_cases hyx : y < x
          · rw [if_pos hyx] at hab
            exact absurd hab (by simp)
          · rw [if_neg hyx] at hab
            have hexy : x = y := le_antisymm (not_lt.mp hyx) (not_lt.mp hxy)
            subst hexy
            by_cases hxz : x < z
            · rw [if_pos hxz]
            · by_cases hzx : z < x
              · rw [if_neg hxz, if_pos hzx] at hbc
                exact absurd hbc (by simp)
              · rw [if_neg hxz, if_neg hzx]
                rw [if_neg hxz, if_neg hzx] at hbc
                exact ih ys zs hab hbc

lemma lexLe_of_isPre : ∀ (a b : Str), a <+: b → lexLe a b = true := by
  intro a
  induction a with
  | nil => intro b _; simp [lexLe]
  | cons x xs ih =>
    intro b h
    obtain ⟨t, ht⟩ := h
    have hb : b = x :: (xs ++ t) := by simpa using ht.symm
    subst hb
    simp only [lexLe, lt_irrefl, if_neg, if_false]
    exact ih (xs ++ t) ⟨t, rfl⟩

lemma not_lexLe_of_strict_isPre : ∀ (a b : Str),
    a <+: b → a ≠ b → lexLe b a = false := by
  intro a
  induction a with
  | nil =>
    intro b _ hne
    cases b with
    | nil => exact absurd rfl hne
    | cons c cs => simp [lexLe]
  | cons x xs ih =>
    intro b h hne
    obtain ⟨t, ht⟩ := h
    have hb : b = x :: (xs ++ t) := by simpa using ht.symm
    subst hb
    have hxs : xs ≠ xs ++ t := fun hc => hne (congrArg (fun l => x :: l) hc)
    simp only [lexLe, lt_irrefl, if_neg, if_false]
    exact ih (xs ++ t) ⟨t, rfl⟩ hxs

/-- Lexicographic order on paths as a relation, for the sort. -/
def LexLe (a b : Str) : Prop := lexLe a b = true

instance : DecidableRel LexLe := fun a b => by unfold LexLe; infer_instance

instance : IsTotal Str LexLe := ⟨fun a b => lexLe_total a b⟩

instance : IsTrans Str LexLe := ⟨fun a b c => lexLe_trans a b c⟩

/-- Python `sorted(mount_points)`: the findmnt targets in ascending
lexicographic string order. -/
def sortedMnts (mnts : List Str) : List Str := List.insertionSort LexLe mnts

/-- The order in which `_bind_submounts` processes the enumerated mount
targets: the sorted list with empty entries and the root `/` skipped. -/
def submountProcessOrder (mnts : List Str) : List Str :=
  (sortedMnts mnts).filter (fun mnt => !(mnt == ([] : Str) || mnt == rootSlash))

def zzMnt : Str := "/zz".toList

def abMnt : Str := "/a/b".toList

def cexMnts : List Str := [zzMnt, abMnt]

/-- C5 (counterexample): with mount targets `/zz` and `/a/b` the processing
order is lexicographic, `/a/b` (length 4) before `/zz` (length 3), which is
not ascending path length. -/
theorem submount_order_not_by_length :
    submountProcessOrder cexMnts = [abMnt, zzMnt]
    ∧ ¬ List.Pairwise (fun a b : Str => a.length ≤ b.length)
        (submountProcessOrder cexMnts) := by decide

/-- C5 (amended): the mount targets are processed in ascending lexicographic
string order with `/` and empty entries skipped; this still places every
parent before its children, since a strict string prefix is lexicographically
smaller. -/
theorem submountProcessOrder_spec (mnts : List Str) :
    List.Pairwise LexLe (submountProcessOrder mnts)
    ∧ rootSlash ∉ submountProcessOrder mnts
    ∧ ([] : Str) ∉ submountProcessOrder mnts
    ∧ ∀ i j : Fin (submountProcessOrder mnts).length,
        (submountProcessOrder mnts).get i <+: (submountProcessOrder mnts).get j →
        (submountProcessOrder mnts).get i ≠ (submountProcessOrder mnts).get j →
        (i : ℕ) < (j : ℕ) := by
  have hsorted : List.Pairwise LexLe (sortedMnts mnts) :=
    List.sorted_insertionSort LexLe mnts
  have hord : List.Pairwise LexLe (submountProcessOrder mnts) :=
    List.Pairwise.sublist (List.filter_sublist _) hsorted
  refine ⟨hord, ?_, ?_, ?_⟩
  · intro hmem
    have hp : (!(rootSlash == ([] : Str) || rootSlash == rootSlash)) = true :=
      (List.mem_filter.mp hmem).2
    exact absurd hp (by decide)
  · intro hmem
    have hp : (!(([] : Str) == ([] : Str) || ([] : Str) == rootSlash)) = true :=
      (List.mem_filter.mp hmem).2
    exact absurd hp (by decide)
  · intro i j hij hne
    rcases lt_trichotomy (i : ℕ) (j : ℕ) with h | h | h
    · exact h
    · exact absurd (congrArg (fun k => (submountProcessOrder mnts).get k)
        (Fin.ext h)) hne
    · have hp : lexLe ((submountProcessOrder mnts).get j)
          ((submountProcessOrder mnts).get i) = true :=
        List.pairwise_iff_get.mp hord j i h
      have hf := not_lexLe_of_strict_isPre _ _ hij hne
      rw [hf] at hp
      cases hp

def hMnt : Str := "/home".toList

def haMnt : Str := "/home/a".toList

def cexMnts2 : List Str := [haMnt, hMnt]

/-- Witness for the amended C5 theorem: `/home` is processed before its
child `/home/a`. -/
theorem submountProcessOrder_spec_w :
    ((⟨0, by decide⟩ : Fin (submountProcessOrder cexMnts2).length) : ℕ)
      < ((⟨1, by decide⟩ : Fin (submountProcessOrder cexMnts2).length) : ℕ) :=
  (submountProcessOrder_spec cexMnts2).2.2.2 ⟨0, by decide⟩ ⟨1, by decide⟩
    (by decide) (by decide)

/-- Python `mnt.lstrip("/")`: drop all leading slashes. -/
def lstripSlashes : Str → Str
  | [] => []
  | c :: rest => if c = '/' then lstripSlashes rest else c :: rest

/-- Embedding of `os.path.join(a, b)` for two components. -/
def joinPath (a b : Str) : Str :=
  if b.take 1 = ['/'] then b
  else if a = [] ∨ a.getLast? = some '/' then a ++ b
  else a ++ '/' :: b

/-- Python `mnt.replace("/", "_")`, the `safe_name` slug. -/
def slugify : Str → Str := List.map (fun c => if c = '/' then '_' else c)

def subUpperTag : Str := "sub_upper".toList

/-- One overlay record `(upper_dir, lower_dir, mount_point)`. -/
abbrev Overlay := Str × Str × Str

/-- The body of the `_bind_submounts` loop for one enumerated target:
skip empty entries and `/`; otherwise, when both directories exist and the
nested overlay mount succeeds, record `(sub_upper, mnt, target)`. -/
def bindSubFn (tempRoot mergedDir : Str) (dOk mOk : Str → Bool) (mnt : Str) :
    Option Overlay :=
  if mnt = [] ∨ mnt = rootSlash then none
  else if dOk mnt && dOk (joinPath mergedDir (lstripSlashes mnt)) && mOk mnt then
    some (joinPath tempRoot (subUpperTag ++ slugify mnt), mnt,
      joinPath mergedDir (lstripSlashes mnt))
  else none

/-- Embedding of `_bind_submounts`: process the sorted targets in order,
recording the overlays that were successfully mounted. -/
def bindSubmounts (tempRoot mergedDir : Str) (mnts : List Str)
    (dOk mOk : Str → Bool) : List Overlay :=
  (sortedMnts mnts).filterMap (bindSubFn tempRoot mergedDir dOk mOk)

/-- The session's overlay list right after `__init__`: the root overlay
`(upper, /, merged)` first, then the submount overlays in discovery order.
`run_command`, `_hide_sensitive_paths` and friends never modify it. -/
def sessionOverlays (tempRoot upperDir mergedDir : Str) (mnts : List Str)
    (dOk mOk : Str → Bool) : List Overlay :=
  (upperDir, rootSlash, mergedDir) :: bindSubmounts tempRoot mergedDir mnts dOk mOk

/-- A canonical absolute mount target: starts with exactly one slash. -/
def canonicalMnt (mnt : Str) : Prop :=
  mnt.take 1 = ['/'] ∧ mnt.take 2 ≠ ['/', '/']

instance (mnt : Str) : Decidable (canonicalMnt mnt) := by
  unfold canonicalMnt; infer_instance

lemma canonical_decomp (mnt : Str) (h : canonicalMnt mnt) :
    mnt = '/' :: lstripSlashes mnt ∧ (lstripSlashes mnt).take 1 ≠ ['/'] := by
  obtain ⟨h1, h2⟩ := h
  cases mnt with
  | nil => simp at h1
  | cons c rest =>
    have hc : c = '/' := by simpa using h1
    subst hc
    cases rest with
    | nil => simp [lstripSlashes]
    | cons d ds =>
      have hd : ¬ d = '/' := by
        intro hd
        subst hd
        exact h2 rfl
      constructor
      · simp [lstripSlashes, hd]
      · simp [lstripSlashes, hd]

lemma isPre_cancel_left (l a b : Str) (h : l ++ a <+: l ++ b) : a <+: b := by
  obtain ⟨t, ht⟩ := h
  exact ⟨t, by simpa [List.append_assoc] using ht⟩

lemma joinPath_canonical (mergedDir mnt : Str) (hM1 : mergedDir ≠ [])
    (hM2 : mergedDir.getLast? ≠ some '/') (h : canonicalMnt mnt) :
    joinPath mergedDir (lstripSlashes mnt) = mergedDir ++ mnt := by
  obtain ⟨hdec, htake⟩ := canonical_decomp mnt h
  unfold joinPath
  rw [if_neg htake, if_neg (by simp [hM1, hM2])]
  conv_rhs => rw [hdec]

lemma bindSubFn_eq_some (tempRoot mergedDir : Str) (dOk mOk : Str → Bool)
    (mnt : Str) (ov : Overlay)
    (h : bindSubFn tempRoot mergedDir dOk mOk mnt = some ov) :
    ov.2.1 = mnt ∧ ov.2.2 = joinPath mergedDir (lstripSlashes mnt) ∧ mnt ≠ [] := by
  by_cases h0 : mnt = [] ∨ mnt = rootSlash
  · unfold bindSubFn at h
    rw [if_pos h0] at h
    cases h
  · unfold bindSubFn at h
    rw [if_neg h0] at h
    by_cases h1 : (dOk mnt && dOk (joinPath mergedDir (lstripSlashes mnt))
        && mOk mnt) = true
    · rw [if_pos h1] at h
      obtain rfl := Option.some.inj h
      exact ⟨rfl, rfl, fun hc => h0 (Or.inl hc)⟩
    · rw [if_neg h1] at h
      cases h

/-- C6: in the recorded overlay list, whenever one overlay's mount point is
a strict prefix of another's, the former appears earlier in the list (root
overlay first, submounts in sorted order); and teardown emits the unmount
actions in exactly the reverse of the list order. -/
theorem overlays_parent_before_child (tempRoot upperDir mergedDir : Str)
    (mnts : List Str) (dOk mOk : Str → Bool)
    (hM1 : mergedDir ≠ []) (hM2 : mergedDir.getLast? ≠ some '/')
    (hmnts : ∀ mnt ∈ mnts, canonicalMnt mnt) :
    (∀ i j : Fin (sessionOverlays tempRoot upperDir mergedDir mnts dOk mOk).length,
        ((sessionOverlays tempRoot upperDir mergedDir mnts dOk mOk).get i).2.2
          <+: ((sessionOverlays tempRoot upperDir mergedDir mnts dOk mOk).get j).2.2 →
        ((sessionOverlays tempRoot upperDir mergedDir mnts dOk mOk).get i).2.2
          ≠ ((sessionOverlays tempRoot upperDir mergedDir mnts dOk mOk).get j).2.2 →
        (i : ℕ) < (j : ℕ))
    ∧ ∀ keep : Bool,
        (cleanup keep
            ⟨true, sessionOverlays tempRoot upperDir mergedDir mnts dOk mOk,
              true⟩).2.filter isUnmountAct
          = (sessionOverlays tempRoot upperDir mergedDir mnts dOk mOk).reverse.map
              (fun ov => CleanupAction.unmountMp ov.2.2) := by
  have hcanon : ∀ mnt ∈ sortedMnts mnts, canonicalMnt mnt := fun mnt hm =>
    hmnts mnt ((List.perm_insertionSort LexLe mnts).mem_iff.mp hm)
  have hsorted : List.Pairwise LexLe (sortedMnts mnts) :=
    List.sorted_insertionSort LexLe mnts
  have hpw : List.Pairwise
      (fun A B : Overlay => ¬ (B.2.2 <+: A.2.2 ∧ B.2.2 ≠ A.2.2))
      (sessionOverlays tempRoot upperDir mergedDir mnts dOk mOk) := by
    refine List.pairwise_cons.mpr ⟨?_, ?_⟩
    · intro B hB hcontra
      obtain ⟨mnt, hmem, hfn⟩ := List.mem_filterMap.mp hB
      obtain ⟨_, hmp, hne⟩ := bindSubFn_eq_some _ _ _ _ _ _ hfn
      have hcan := hcanon mnt hmem
      have hmp2 : B.2.2 = mergedDir ++ mnt :=
        hmp.trans (joinPath_canonical mergedDir mnt hM1 hM2 hcan)
      have hlen : mergedDir.length + mnt.length ≤ mergedDir.length := by
        simpa [hmp2] using List.IsPrefix.length_le hcontra.1
      have hz : mnt.length = 0 := by omega
      exact hne (List.length_eq_zero.mp hz)
    · refine List.pairwise_filterMap.mpr ?_
      refine List.Pairwise.imp_of_mem ?_ hsorted
      intro a b ha hb hab x hx y hy
      rintro ⟨hpre, hne⟩
      have hax := bindSubFn_eq_some _ _ _ _ _ _ (Option.mem_def.mp hx)
      have hby := bindSubFn_eq_some _ _ _ _ _ _ (Option.mem_def.mp hy)
      have hxa : x.2.2 = mergedDir ++ a :=
        hax.2.1.trans (joinPath_canonical mergedDir a hM1 hM2 (hcanon a ha))
      have hyb : y.2.2 = mergedDir ++ b :=
        hby.2.1.trans (joinPath_canonical mergedDir b hM1 hM2 (hcanon b hb))
      rw [hxa, hyb] at hpre hne
      have hba : b <+: a := isPre_cancel_left mergedDir b a hpre
      have hbne : b ≠ a := fun hc => hne (by rw [hc])
      have hf := not_lexLe_of_strict_isPre b a hba hbne
      have hab' : lexLe a b = true := hab
      rw [hf] at hab'
      cases hab'
  constructor
  · intro i j hij hne
    rcases lt_trichotomy (i : ℕ) (j : ℕ) with h | h | h
    · exact h
    · exact absurd (congrArg
        (fun k => ((sessionOverlays tempRoot upperDir mergedDir mnts dOk mOk).get k).2.2)
        (Fin.ext h)) hne
    · exact absurd ⟨hij, hne⟩ (List.pairwise_iff_get.mp hpw j i h)
  · intro keep
    cases keep <;>
      simp [cleanup, isUnmountAct, List.filter_append, List.filter_reverse,
        filter_unmount_of_apply, filter_unmount_of_unmount]

def cexTempRoot : Str := "/tmp/o".toList

def procMnt : Str := "/proc".toList

def cexMnts3 : List Str := [hMnt, haMnt, procMnt]

/-- Witness for C6: teardown of a session over `/home`, `/home/a` and
`/proc` unmounts in exactly the reverse of the recorded order. -/
theorem overlays_parent_before_child_w :
    (cleanup false
        ⟨true, sessionOverlays cexTempRoot cexUpperDir cexMergedDir cexMnts3
          (fun _ => true) (fun _ => true), true⟩).2.filter isUnmountAct
      = (sessionOverlays cexTempRoot cexUpperDir cexMergedDir cexMnts3
          (fun _ => true) (fun _ => true)).reverse.map
          (fun ov => CleanupAction.unmountMp ov.2.2) :=
  (overlays_parent_before_child cexTempRoot cexUpperDir cexMergedDir cexMnts3
    (fun _ => true) (fun _ => true) (by decide) (by decide) (by decide)).2 false

/-! ### Embedding of `_create_opaque_dir` and `_create_whiteouts_recursive`
(`overlayfs.py` lines 330-395). -/

/-- A directory listing as seen by `os.listdir` plus `os.path.isdir`:
file entries and subdirectories with their own listings. -/
inductive FTree where
  | file : Str → FTree
  | dir : Str → List FTree → FTree

/-- Embedding of `_create_whiteouts_recursive` with `mknod` succeeding:
returns the absolute paths added to `hidden_paths` — one per regular file,
recursing into subdirectories, never recording a directory itself. -/
def createWhiteoutsRecursive : Str → List FTree → List Str
  | _, [] => []
  | p, FTree.file n :: rest => joinPath p n :: createWhiteoutsRecursive p rest
  | p, FTree.dir n cs :: rest =>
    createWhiteoutsRecursive (joinPath p n) cs ++ createWhiteoutsRecursive p rest

/-- Embedding of `_create_opaque_dir`: when `setfattr` succeeds the
directory path itself is added to `hidden_paths`; otherwise the recursive
whiteout fallback runs and only its file paths are recorded. -/
def createOpaqueDir (xattrOk : Bool) (absPath : Str) (entries : List FTree) :
    List Str :=
  if xattrOk then [absPath] else createWhiteoutsRecursive absPath entries

/-- The proposition that `q` is the absolute path of a regular file inside
the listing `ts` rooted at `p`. -/
inductive FileAt : Str → List FTree → Str → Prop where
  | hd (p n : Str) (rest : List FTree) : FileAt p (FTree.file n :: rest) (joinPath p n)
  | dirIn (p n : Str) (cs rest : List FTree) (q : Str) :
      FileAt (joinPath p n) cs q → FileAt p (FTree.dir n cs :: rest) q
  | tl (p : Str) (e : FTree) (rest : List FTree) (q : Str) :
      FileAt p rest q → FileAt p (e :: rest) q

/-- Well-formed directory listings: every entry name is nonempty and does
not start with a slash. -/
def goodNames : List FTree → Bool
  | [] => true
  | FTree.file n :: rest =>
    (decide (n ≠ []) && decide (n.take 1 ≠ ['/'])) && goodNames rest
  | FTree.dir n cs :: rest =>
    ((decide (n ≠ []) && decide (n.take 1 ≠ ['/'])) && goodNames cs) && goodNames rest

lemma joinPath_len (p n : Str) (h1 : n ≠ []) (h2 : n.take 1 ≠ ['/']) :
    p.length < (joinPath p n).length := by
  have hn := List.length_pos.mpr h1
  unfold joinPath
  rw [if_neg h2]
  split
  · simp only [List.length_append]
    omega
  · simp only [List.length_append, List.length_cons]
    omega

theorem cwr_len : ∀ (p : Str) (ts : List FTree), goodNames ts = true →
    ∀ q ∈ createWhiteoutsRecursive p ts, p.length < q.length
  | p, [], _, q, hq => by simp [createWhiteoutsRecursive] at hq
  | p, FTree.file n :: rest, hg, q, hq => by
    simp only [createWhiteoutsRecursive, List.mem_cons] at hq
    simp only [goodNames, Bool.and_eq_true, decide_eq_true_eq] at hg
    rcases hq with rfl | hq
    · exact joinPath_len p n hg.1.1 hg.1.2
    · exact cwr_len p rest (by simp [goodNames, hg.2]) q hq
  | p, FTree.dir n cs :: rest, hg, q, hq => by
    simp only [createWhiteoutsRecursive, List.mem_append] at hq
    simp only [goodNames, Bool.and_eq_true, decide_eq_true_eq] at hg
    rcases hq with hq | hq
    · have ha := cwr_len (joinPath p n) cs (by simp [goodNames, hg.1.2]) q hq
      have hb := joinPath_len p n hg.1.1.1 hg.1.1.2
      omega
    · exact cwr_len p rest (by simp [goodNames, hg.2]) q hq

theorem cwr_mem_iff : ∀ (p : Str) (ts : List FTree) (q : Str),
    q ∈ createWhiteoutsRecursive p ts ↔ FileAt p ts q
  | p, [], q => by
    constructor
    · intro h
      simp [createWhiteoutsRecursive] at h
    · intro h
      cases h
  | p, FTree.file n :: rest, q => by
    simp only [createWhiteoutsRecursive, List.mem_cons]
    constructor
    · rintro (rfl | h)
      · exact FileAt.hd p n rest
      · exact FileAt.tl p _ rest q ((cwr_mem_iff p rest q).mp h)
    · intro h
      cases h with
      | hd => left; rfl
      | tl _ _ _ _ h => right; exact (cwr_mem_iff p rest q).mpr h
  | p, FTree.dir n cs :: rest, q => by
    simp only [createWhiteoutsRecursive, List.mem_append]
    constructor
    · rintro (h | h)
      · exact FileAt.dirIn p n cs rest q ((cwr_mem_iff (joinPath p n) cs q).mp h)
      · exact FileAt.tl p _ rest q ((cwr_mem_iff p rest q).mp h)
    · intro h
      cases h with
      | dirIn _ _ _ _ _ h => left; exact (cwr_mem_iff (joinPath p n) cs q).mpr h
      | tl _ _ _ _ h => right; exact (cwr_mem_iff p rest q).mpr h

def cexDirPath : Str := "/s".toList

def cexDirFile : Str := "/s/k".toList

def cexTree : List FTree := [FTree.file (['k'] : Str)]

/-- C9 (counterexample): concealing the directory `/s` (containing one file
`k`) through the recursive-whiteout fallback records only `/s/k` in
`hidden_paths`; the directory `/s` itself is recorded only on the xattr
path, refuting the claim that `p` is recorded in both cases. -/
theorem fallback_omits_dir_itself :
    createOpaqueDir false cexDirPath cexTree = [cexDirFile]
    ∧ cexDirPath ∉ createOpaqueDir false cexDirPath cexTree
    ∧ createOpaqueDir true cexDirPath cexTree = [cexDirPath] := by
  refine ⟨?_, ?_, by decide⟩
  · show createWhiteoutsRecursive cexDirPath cexTree = [cexDirFile]
    simp only [cexTree, createWhiteoutsRecursive]
    decide
  · show cexDirPath ∉ createWhiteoutsRecursive cexDirPath cexTree
    simp only [cexTree, createWhiteoutsRecursive]
    decide

/-- C9 (amended): on the xattr path the concealed directory itself is
recorded; on the fallback path exactly the regular-file paths under it are
recorded — each one a successfully concealed path — and the directory
itself is never among them. -/
theorem concealed_dir_recording (xattrOk : Bool) (p : Str) (ts : List FTree) :
    (xattrOk = true → createOpaqueDir xattrOk p ts = [p])
    ∧ (xattrOk = false →
        ∀ q, q ∈ createOpaqueDir xattrOk p ts ↔ FileAt p ts q)
    ∧ (xattrOk = false → goodNames ts = true →
        p ∉ createOpaqueDir xattrOk p ts) := by
  refine ⟨?_, ?_, ?_⟩
  · intro h
    simp [createOpaqueDir, h]
  · intro h q
    subst h
    exact cwr_mem_iff p ts q
  · intro h hg hmem
    subst h
    exact absurd (cwr_len p ts hg p hmem) (lt_irrefl _)

def cexTree2 : List FTree := [FTree.dir (['d'] : Str) [FTree.file (['k'] : Str)]]

/-- Witness for the amended C9 theorem: fallback concealment of a nested
tree never records the directory itself. -/
theorem concealed_dir_recording_w :
    cexDirPath ∉ createOpaqueDir false cexDirPath cexTree2 :=
  (concealed_dir_recording false cexDirPath cexTree2).2.2 rfl
    (by simp only [cexTree2, goodNames]; decide)

/-! ### Change discovery (spec §4.4, §3).

The repository declares `get_changed_files` and `ChangedFile` in
`sandbox.py` and consumes them in `diff_display.py`, but their
implementation is not under `src/`; the definitions below are modelled
from the spec. -/

/-- Modelled from the spec: the `kind ∈ {Added, Modified, Deleted}` field of
a ChangedFile (the implementation of the change-type enum is missing from
`src/`). -/
inductive ChangeType where
  | added
  | modified
  | deleted
deriving DecidableEq

/-- Modelled from the spec: the record
`(path, kind, upper_path, lower_path)` (the `ChangedFile` implementation is
missing from `src/`). -/
structure ChangedFile where
  path : Str
  kind : ChangeType
  upperPath : Str
  lowerPath : Str
deriving DecidableEq

/-- An entry of an overlay upper layer: a whiteout device or file data. -/
inductive UpperEntry where
  | whiteout
  | data (content : Str)
deriving DecidableEq

/-- An upper layer as a finite map from paths to entries. -/
abbrev UpperMap := List (Str × UpperEntry)

/-- First-match association lookup, the map semantics of a file tree. -/
def alookup {α : Type} : List (Str × α) → Str → Option α
  | [], _ => none
  | e :: es, p => if e.1 = p then some e.2 else alookup es p

/-- Create or overwrite the binding of `p`. -/
def setA {α : Type} : List (Str × α) → Str → α → List (Str × α)
  | [], p, v => [(p, v)]
  | e :: es, p, v => if e.1 = p then (p, v) :: es else e :: setA es p v

/-- Remove every binding of `p`. -/
def removeA {α : Type} : List (Str × α) → Str → List (Str × α)
  | [], _ => []
  | e :: es, p => if e.1 = p then removeA es p else e :: removeA es p

/-- The merged view of an overlay: a whiteout hides the lower file, upper
data shadows it, and otherwise the lower layer shows through. -/
def viewLookup (upper : UpperMap) (lower : FileMap) (p : Str) : Option Str :=
  match alookup upper p with
  | some UpperEntry.whiteout => none
  | some (UpperEntry.data c) => some c
  | none => alookup lower p

/-- A sandboxed filesystem write: create/overwrite a file, or unlink it. -/
inductive WriteOp where
  | write (p c : Str)
  | delete (p : Str)

/-- Kernel overlay semantics of one write against the upper layer: a write
copies up into the upper layer; an unlink of a visible file leaves a
whiteout when the file exists in the lower layer and simply drops the
upper file otherwise; an unlink of an invisible file fails and changes
nothing. -/
def applyWriteOp (lower : FileMap) (upper : UpperMap) : WriteOp → UpperMap
  | WriteOp.write p c => setA upper p (UpperEntry.data c)
  | WriteOp.delete p =>
    match viewLookup upper lower p with
    | none => upper
    | some _ =>
      if (alookup lower p).isSome then setA upper p UpperEntry.whiteout
      else removeA upper p

/-- The upper layer produced by a sequence of sandboxed writes, starting
from the empty upper layer of a fresh session. -/
def runOps (lower : FileMap) (ops : List WriteOp) : UpperMap :=
  ops.foldl (applyWriteOp lower) []

/-- The same write sequence applied to an ordinary filesystem. -/
def applyPlain (fs : FileMap) : WriteOp → FileMap
  | WriteOp.write p c => setA fs p c
  | WriteOp.delete p => if (alookup fs p).isSome then removeA fs p else fs

/-- The plain-filesystem result of the write sequence. -/
def runPlain (lower : FileMap) (ops : List WriteOp) : FileMap :=
  ops.foldl applyPlain lower

/-- One step of the expected bookkeeping: which paths end the session with
a surviving write. -/
def effStep (eff : Str → Bool) : WriteOp → Str → Bool
  | WriteOp.write q _, p => if q = p then true else eff p
  | WriteOp.delete q, p => if q = p then false else eff p

/-- A path was written during the session and not deleted afterwards. -/
def effectivelyWritten (ops : List WriteOp) : Str → Bool :=
  ops.foldl effStep (fun _ => false)

/-- Modelled from the spec: classification of one upper-layer entry during
change discovery — whiteout means Deleted, a file means Added when the
lower path is absent and Modified when it is present. -/
def classifyKind (lower : FileMap) (p : Str) : UpperEntry → ChangeType
  | UpperEntry.whiteout => ChangeType.deleted
  | UpperEntry.data _ =>
    if (alookup lower p).isSome then ChangeType.modified else ChangeType.added

/-- Modelled from the spec: `get_changed_files` — walk the upper layer and
emit one ChangedFile per entry, with the physical paths of both copies
(the implementation is missing from `src/`). -/
def getChangedFiles (upperDir lowerDir : Str) (upper : UpperMap)
    (lower : FileMap) : List ChangedFile :=
  upper.map (fun e =>
    ⟨e.1, classifyKind lower e.1 e.2, joinPath upperDir e.1, joinPath lowerDir e.1⟩)


lemma alookup_cons {α : Type} (e : Str × α) (es : List (Str × α)) (q : Str) :
    alookup (e :: es) q = if e.1 = q then some e.2 else alookup es q := rfl

lemma setA_cons {α : Type} (e : Str × α) (es : List (Str × α)) (p : Str) (v : α) :
    setA (e :: es) p v = if e.1 = p then (p, v) :: es else e :: setA es p v := rfl

lemma removeA_cons {α : Type} (e : Str × α) (es : List (Str × α)) (p : Str) :
    removeA (e :: es) p = if e.1 = p then removeA es p else e :: removeA es p := rfl

lemma alookup_setA_self {α : Type} (l : List (Str × α)) (p : Str) (v : α) :
    alookup (setA l p v) p = some v := by
  induction l with
  | nil =>
    show alookup [(p, v)] p = some v
    rw [alookup_cons, if_pos rfl]
  | cons e es ih =>
    rw [setA_cons]
    by_cases he : e.1 = p
    · rw [if_pos he, alookup_cons, if_pos rfl]
    · rw [if_neg he, alookup_cons, if_neg he, ih]

lemma alookup_setA_ne {α : Type} (l : List (Str × α)) (p : Str) (v : α)
    (q : Str) (h : q ≠ p) : alookup (setA l p v) q = alookup l q := by
  have h' : ¬ p = q := fun hc => h hc.symm
  induction l with
  | nil =>
    show alookup [(p, v)] q = alookup [] q
    rw [alookup_cons, if_neg h']
  | cons e es ih =>
    rw [setA_cons]
    by_cases he : e.1 = p
    · rw [if_pos he, alookup_cons (p, v) es q, alookup_cons e es q]
      rw [if_neg h', if_neg (fun hc : e.1 = q => h' (he ▸ hc))]
    · rw [if_neg he, alookup_cons e (setA es p v) q, alookup_cons e es q]
      by_cases heq : e.1 = q
      · rw [if_pos heq, if_pos heq]
      · rw [if_neg heq, if_neg heq, ih]

lemma alookup_removeA_self {α : Type} (l : List (Str × α)) (p : Str) :
    alookup (removeA l p) p = none := by
  induction l with
  | nil => rfl
  | cons e es ih =>
    rw [removeA_cons]
    by_cases he : e.1 = p
    · rw [if_pos he]
      exact ih
    · rw [if_neg he, alookup_cons, if_neg he]
      exact ih

lemma alookup_removeA_ne {α : Type} (l : List (Str × α)) (p : Str)
    (q : Str) (h : q ≠ p) : alookup (removeA l p) q = alookup l q := by
  induction l with
  | nil => rfl
  | cons e es ih =>
    rw [removeA_cons]
    by_cases he : e.1 = p
    · rw [if_pos he, ih, alookup_cons e es q,
        if_neg (fun hc : e.1 = q => h ((he ▸ hc : p = q)).symm)]
    · rw [if_neg he, alookup_cons e (removeA es p) q, alookup_cons e es q]
      by_cases heq : e.1 = q
      · rw [if_pos heq, if_pos heq]
      · rw [if_neg heq, if_neg heq, ih]

/-- Keys of a finite map are distinct. -/
def keysNodup {α : Type} (l : List (Str × α)) : Prop :=
  (l.map Prod.fst).Nodup

lemma keys_setA_sub {α : Type} (l : List (Str × α)) (p : Str) (v : α)
    (q : Str) : q ∈ (setA l p v).map Prod.fst →
    q = p ∨ q ∈ l.map Prod.fst := by
  induction l with
  | nil =>
    intro h
    exact Or.inl (List.mem_singleton.mp h)
  | cons e es ih =>
    intro h
    rw [setA_cons] at h
    by_cases he : e.1 = p
    · rw [if_pos he, List.map_cons] at h
      rcases List.mem_cons.mp h with h1 | h1
      · exact Or.inl h1
      · exact Or.inr (by rw [List.map_cons]; exact List.mem_cons_of_mem _ h1)
    · rw [if_neg he, List.map_cons] at h
      rcases List.mem_cons.mp h with h1 | h1
      · exact Or.inr (by rw [List.map_cons, h1]; exact List.mem_cons_self _ _)
      · rcases ih h1 with h2 | h2
        · exact Or.inl h2
        · exact Or.inr (by rw [List.map_cons]; exact List.mem_cons_of_mem _ h2)

lemma setA_keysNodup {α : Type} (l : List (Str × α)) (p : Str) (v : α) :
    keysNodup l → keysNodup (setA l p v) := by
  induction l with
  | nil =>
    intro _
    show ([(p, v)].map Prod.fst).Nodup
    simp
  | cons e es ih =>
    intro h
    have h2 : e.1 ∉ es.map Prod.fst ∧ (es.map Prod.fst).Nodup := by
      have h3 := h
      unfold keysNodup at h3
      rw [List.map_cons, List.nodup_cons] at h3
      exact h3
    unfold keysNodup
    rw [setA_cons]
    by_cases he : e.1 = p
    · rw [if_pos he, List.map_cons, List.nodup_cons]
      exact ⟨he ▸ h2.1, h2.2⟩
    · rw [if_neg he, List.map_cons, List.nodup_cons]
      refine ⟨?_, ih h2.2⟩
      intro hc
      rcases keys_setA_sub es p v e.1 hc with hc2 | hc2
      · exact he hc2
      · exact h2.1 hc2

lemma keys_removeA_sublist {α : Type} (l : List (Str × α)) (p : Str) :
    ((removeA l p).map Prod.fst).Sublist (l.map Prod.fst) := by
  induction l with
  | nil => exact List.Sublist.refl _
  | cons e es ih =>
    rw [removeA_cons]
    by_cases he : e.1 = p
    · rw [if_pos he, List.map_cons]
      exact ih.trans (List.sublist_cons_self _ _)
    · rw [if_neg he, List.map_cons, List.map_cons]
      exact List.Sublist.cons₂ _ ih

lemma removeA_keysNodup {α : Type} (l : List (Str × α)) (p : Str)
    (h : keysNodup l) : keysNodup (removeA l p) :=
  List.Nodup.sublist (keys_removeA_sublist l p) h

lemma runOps_keysNodup (lower : FileMap) (ops : List WriteOp) :
    keysNodup (runOps lower ops) := by
  suffices haux : ∀ (acc : UpperMap), keysNodup acc →
      keysNodup (ops.foldl (applyWriteOp lower) acc) by
    exact haux [] (by simp [keysNodup])
  induction ops with
  | nil => intro acc h; exact h
  | cons op rest ih =>
    intro acc h
    simp only [List.foldl_cons]
    refine ih _ ?_
    cases op with
    | write p c => exact setA_keysNodup acc p _ h
    | delete p =>
      show keysNodup (applyWriteOp lower acc (WriteOp.delete p))
      rcases hv : viewLookup acc lower p with _ | c
      · simp only [applyWriteOp, hv]
        exact h
      · simp only [applyWriteOp, hv]
        by_cases hl : (alookup lower p).isSome
        · rw [if_pos hl]
          exact setA_keysNodup acc p _ h
        · rw [if_neg hl]
          exact removeA_keysNodup acc p h

lemma mem_of_alookup_eq_some {α : Type} (l : List (Str × α)) (p : Str) (v : α) :
    alookup l p = some v → (p, v) ∈ l := by
  induction l with
  | nil =>
    intro h
    exact Option.noConfusion h
  | cons e es ih =>
    intro h
    rw [alookup_cons] at h
    by_cases he : e.1 = p
    · rw [if_pos he] at h
      have hev : e = (p, v) := Prod.ext he (Option.some.inj h)
      exact List.mem_cons.mpr (Or.inl hev.symm)
    · rw [if_neg he] at h
      exact List.mem_cons_of_mem _ (ih h)

lemma alookup_eq_some_of_mem {α : Type} (l : List (Str × α)) (p : Str) (v : α) :
    keysNodup l → (p, v) ∈ l → alookup l p = some v := by
  induction l with
  | nil =>
    intro _ h
    exact absurd h (List.not_mem_nil _)
  | cons e es ih =>
    intro hnd h
    have hnd' : e.1 ∉ es.map Prod.fst ∧ (es.map Prod.fst).Nodup := by
      have h3 := hnd
      unfold keysNodup at h3
      rw [List.map_cons, List.nodup_cons] at h3
      exact h3
    rw [alookup_cons]
    rcases List.mem_cons.mp h with heq | hmem
    · rw [if_pos (heq ▸ rfl : e.1 = p)]
      rw [heq.symm]
    · have hne : ¬ e.1 = p := by
        intro hc
        apply hnd'.1
        rw [hc]
        exact List.mem_map.mpr ⟨(p, v), hmem, rfl⟩
      rw [if_neg hne]
      exact ih hnd'.2 hmem

/-- Per-path relation between an upper-layer entry, the plain-filesystem
result of the same writes, and the written-path bookkeeping. -/
def entryInv (lower : FileMap) (fs : FileMap) (eff : Str → Bool) (p : Str) :
    Option UpperEntry → Prop
  | some (UpperEntry.data c) => alookup fs p = some c ∧ eff p = true
  | some UpperEntry.whiteout =>
    alookup fs p = none ∧ (alookup lower p).isSome = true ∧ eff p = false
  | none => alookup fs p = alookup lower p ∧ eff p = false

/-- The overlay upper layer refines the plain filesystem: at every path the
entry matches the plain result of the write sequence. -/
def StateInv (lower : FileMap) (upper : UpperMap) (fs : FileMap)
    (eff : Str → Bool) : Prop :=
  ∀ p, entryInv lower fs eff p (alookup upper p)

lemma entryInv_congr (lower fs fs' : FileMap) (eff eff' : Str → Bool)
    (p : Str) (o : Option UpperEntry)
    (hfs : alookup fs' p = alookup fs p) (heff : eff' p = eff p)
    (h : entryInv lower fs eff p o) : entryInv lower fs' eff' p o := by
  cases o with
  | none => exact ⟨hfs.trans h.1, heff.trans h.2⟩
  | some e =>
    cases e with
    | whiteout => exact ⟨hfs.trans h.1, h.2.1, heff.trans h.2.2⟩
    | data c => exact ⟨hfs.trans h.1, heff.trans h.2⟩

lemma stateInv_step (lower : FileMap) (upper : UpperMap) (fs : FileMap)
    (eff : Str → Bool) (hinv : StateInv lower upper fs eff) (op : WriteOp) :
    StateInv lower (applyWriteOp lower upper op) (applyPlain fs op)
      (effStep eff op) := by
  intro p
  cases op with
  | write q c =>
    by_cases hpq : p = q
    · subst hpq
      simp only [applyWriteOp]
      rw [alookup_setA_self]
      refine ⟨?_, ?_⟩
      · show alookup (setA fs p c) p = some c
        exact alookup_setA_self fs p c
      · show (if p = p then true else eff p) = true
        rw [if_pos rfl]
    · simp only [applyWriteOp]
      rw [alookup_setA_ne upper q _ p hpq]
      refine entryInv_congr lower fs _ eff _ p _ ?_ ?_ (hinv p)
      · show alookup (setA fs q c) p = alookup fs p
        exact alookup_setA_ne fs q c p hpq
      · show (if q = p then true else eff p) = eff p
        rw [if_neg (fun hc => hpq hc.symm)]
  | delete q =>
    by_cases hpq : p = q
    · subst hpq
      have hup := hinv p
      rcases hu : alookup upper p with _ | e
      · rw [hu] at hup
        rcases hl : alookup lower p with _ | c0
        · have hview : viewLookup upper lower p = none := by
            unfold viewLookup
            rw [hu, hl]
          simp only [applyWriteOp, hview]
          rw [hu]
          have hfsp : alookup fs p = none := by rw [hup.1, hl]
          have hfs2 : applyPlain fs (WriteOp.delete p) = fs := by
            simp only [applyPlain]
            rw [hfsp]
            rfl
          rw [hfs2]
          refine ⟨hup.1, ?_⟩
          show (if p = p then false else eff p) = false
          rw [if_pos rfl]
        · have hview : viewLookup upper lower p = some c0 := by
            unfold viewLookup
            rw [hu, hl]
          simp only [applyWriteOp, hview]
          rw [if_pos (by rw [hl]; rfl)]
          rw [alookup_setA_self]
          refine ⟨?_, by rw [hl]; rfl, ?_⟩
          · show alookup (applyPlain fs (WriteOp.delete p)) p = none
            have hfsp : alookup fs p = some c0 := by rw [hup.1, hl]
            simp only [applyPlain]
            rw [hfsp]
            simp only [Option.isSome_some, if_true]
            exact alookup_removeA_self fs p
          · show (if p = p then false else eff p) = false
            rw [if_pos rfl]
      · cases e with
        | whiteout =>
          rw [hu] at hup
          have hview : viewLookup upper lower p = none := by
            unfold viewLookup
            rw [hu]
          simp only [applyWriteOp, hview]
          rw [hu]
          have hfs2 : applyPlain fs (WriteOp.delete p) = fs := by
            simp only [applyPlain]
            rw [hup.1]
            rfl
          rw [hfs2]
          refine ⟨hup.1, hup.2.1, ?_⟩
          show (if p = p then false else eff p) = false
          rw [if_pos rfl]
        | data c =>
          rw [hu] at hup
          have hview : viewLookup upper lower p = some c := by
            unfold viewLookup
            rw [hu]
          simp only [applyWriteOp, hview]
          by_cases hl : (alookup lower p).isSome
          · rw [if_pos hl, alookup_setA_self]
            refine ⟨?_, hl, ?_⟩
            · simp only [applyPlain]
              rw [hup.1]
              simp only [Option.isSome_some, if_true]
              exact alookup_removeA_self fs p
            · show (if p = p then false else eff p) = false
              rw [if_pos rfl]
          · rw [if_neg hl, alookup_removeA_self]
            refine ⟨?_, ?_⟩
            · simp only [applyPlain]
              rw [hup.1]
              simp only [Option.isSome_some, if_true]
              rw [alookup_removeA_self]
              rcases hlo : alookup lower p with _ | c0
              · rfl
              · exact absurd (by rw [hlo]; rfl) hl
            · show (if p = p then false else eff p) = false
              rw [if_pos rfl]
    · have heff : (if q = p then false else eff p) = eff p := by
        rw [if_neg (fun hc => hpq hc.symm)]
      have hufix : alookup (applyWriteOp lower upper (WriteOp.delete q)) p
          = alookup upper p := by
        simp only [applyWriteOp]
        rcases hv : viewLookup upper lower q with _ | c0
        · rfl
        · by_cases hl : (alookup lower q).isSome
          · rw [if_pos hl]
            exact alookup_setA_ne upper q _ p hpq
          · rw [if_neg hl]
            exact alookup_removeA_ne upper q p hpq
      have hfsfix : alookup (applyPlain fs (WriteOp.delete q)) p
          = alookup fs p := by
        simp only [applyPlain]
        by_cases hf : (alookup fs q).isSome
        · rw [if_pos hf]
          exact alookup_removeA_ne fs q p hpq
        · rw [if_neg hf]
      rw [hufix]
      exact entryInv_congr lower fs _ eff _ p _ hfsfix heff (hinv p)

lemma stateInv_runOps (lower : FileMap) (ops : List WriteOp) :
    StateInv lower (runOps lower ops) (runPlain lower ops)
      (effectivelyWritten ops) := by
  suffices haux : ∀ (upper : UpperMap) (fs : FileMap) (eff : Str → Bool),
      StateInv lower upper fs eff →
      StateInv lower (ops.foldl (applyWriteOp lower) upper)
        (ops.foldl applyPlain fs) (ops.foldl effStep eff) by
    refine haux [] lower (fun _ => false) ?_
    intro p
    exact ⟨rfl, rfl⟩
  induction ops with
  | nil => intro upper fs eff h; exact h
  | cons op rest ih =>
    intro upper fs eff h
    simp only [List.foldl_cons]
    exact ih _ _ _ (stateInv_step lower upper fs eff h op)

lemma mem_changes_iff (uD lD : Str) (upper : UpperMap) (lower : FileMap)
    (hnd : keysNodup upper) (p : Str) (k : ChangeType) :
    (∃ cf ∈ getChangedFiles uD lD upper lower, cf.path = p ∧ cf.kind = k)
    ↔ ∃ e, alookup upper p = some e ∧ classifyKind lower p e = k := by
  constructor
  · rintro ⟨cf, hcf, hpath, hkind⟩
    obtain ⟨en, hen, hcfe⟩ := List.mem_map.mp hcf
    subst hcfe
    have hp1 : en.1 = p := hpath
    subst hp1
    have hmem : (en.1, en.2) ∈ upper := by
      rw [Prod.mk.eta]
      exact hen
    exact ⟨en.2, alookup_eq_some_of_mem upper en.1 en.2 hnd hmem, hkind⟩
  · rintro ⟨e, hl, hk⟩
    have hmem := mem_of_alookup_eq_some upper p e hl
    refine ⟨⟨p, classifyKind lower p e, joinPath uD p, joinPath lD p⟩, ?_, rfl, hk⟩
    exact List.mem_map.mpr ⟨(p, e), hmem, rfl⟩

/-- C4: after any sequence of sandboxed writes, `get_changed_files` returns
exactly one record per changed path with the correct kind: a path is
reported Deleted exactly when it existed before and no longer exists,
Added exactly when it did not exist before and exists now, Modified
exactly when it existed before and carries a surviving in-session write;
reported paths are pairwise distinct, so the list is the expected change
set up to order. -/
theorem getChangedFiles_fidelity (lower : FileMap) (ops : List WriteOp)
    (uD lD : Str) (p : Str) :
    ((∃ cf ∈ getChangedFiles uD lD (runOps lower ops) lower,
        cf.path = p ∧ cf.kind = ChangeType.deleted)
      ↔ ((alookup lower p).isSome = true
          ∧ alookup (runPlain lower ops) p = none))
    ∧ ((∃ cf ∈ getChangedFiles uD lD (runOps lower ops) lower,
        cf.path = p ∧ cf.kind = ChangeType.added)
      ↔ (alookup lower p = none
          ∧ (alookup (runPlain lower ops) p).isSome = true))
    ∧ ((∃ cf ∈ getChangedFiles uD lD (runOps lower ops) lower,
        cf.path = p ∧ cf.kind = ChangeType.modified)
      ↔ ((alookup lower p).isSome = true ∧ effectivelyWritten ops p = true))
    ∧ ((getChangedFiles uD lD (runOps lower ops) lower).map
        (fun cf => cf.path)).Nodup := by
  have hnd := runOps_keysNodup lower ops
  have hinv := stateInv_runOps lower ops
  refine ⟨?_, ?_, ?_, ?_⟩
  · rw [mem_changes_iff uD lD _ lower hnd p ChangeType.deleted]
    constructor
    · rintro ⟨e, he, hk⟩
      have h := hinv p
      rw [he] at h
      cases e with
      | whiteout => exact ⟨h.2.1, h.1⟩
      | data c =>
        exfalso
        unfold classifyKind at hk
        by_cases hl : (alookup lower p).isSome
        · rw [if_pos hl] at hk
          exact ChangeType.noConfusion hk
        · rw [if_neg hl] at hk
          exact ChangeType.noConfusion hk
    · rintro ⟨hl, hf⟩
      have h := hinv p
      rcases hu : alookup (runOps lower ops) p with _ | e
      · exfalso
        rw [hu] at h
        rw [h.1] at hf
        rw [hf] at hl
        exact Bool.noConfusion hl
      · cases e with
        | whiteout => exact ⟨UpperEntry.whiteout, rfl, rfl⟩
        | data c =>
          exfalso
          rw [hu] at h
          rw [h.1] at hf
          exact Option.noConfusion hf
  · rw [mem_changes_iff uD lD _ lower hnd p ChangeType.added]
    constructor
    · rintro ⟨e, he, hk⟩
      have h := hinv p
      rw [he] at h
      cases e with
      | whiteout => exact ChangeType.noConfusion hk
      | data c =>
        unfold classifyKind at hk
        by_cases hl : (alookup lower p).isSome
        · rw [if_pos hl] at hk
          exact ChangeType.noConfusion hk
        · rw [if_neg hl] at hk
          refine ⟨?_, ?_⟩
          · rcases hlo : alookup lower p with _ | c0
            · rfl
            · exact absurd (by rw [hlo]; rfl) hl
          · rw [h.1]
            rfl
    · rintro ⟨hl, hf⟩
      have h := hinv p
      rcases hu : alookup (runOps lower ops) p with _ | e
      · exfalso
        rw [hu] at h
        rw [h.1, hl] at hf
        exact Bool.noConfusion hf
      · cases e with
        | whiteout =>
          exfalso
          rw [hu] at h
          have h2 := h.2.1
          rw [hl] at h2
          exact Bool.noConfusion h2
        | data c =>
          refine ⟨UpperEntry.data c, rfl, ?_⟩
          unfold classifyKind
          rw [hl]
          rfl
  · rw [mem_changes_iff uD lD _ lower hnd p ChangeType.modified]
    constructor
    · rintro ⟨e, he, hk⟩
      have h := hinv p
      rw [he] at h
      cases e with
      | whiteout => exact ChangeType.noConfusion hk
      | data c =>
        unfold classifyKind at hk
        by_cases hl : (alookup lower p).isSome
        · exact ⟨hl, h.2⟩
        · rw [if_neg hl] at hk
          exact ChangeType.noConfusion hk
    · rintro ⟨hl, heff⟩
      have h := hinv p
      rcases hu : alookup (runOps lower ops) p with _ | e
      · exfalso
        rw [hu] at h
        have h2 := h.2
        rw [heff] at h2
        exact Bool.noConfusion h2
      · cases e with
        | whiteout =>
          exfalso
          rw [hu] at h
          have h2 := h.2.2
          rw [heff] at h2
          exact Bool.noConfusion h2
        | data c =>
          refine ⟨UpperEntry.data c, rfl, ?_⟩
          unfold classifyKind
          rw [if_pos hl]
  · have hmap : (getChangedFiles uD lD (runOps lower ops) lower).map
        (fun cf => cf.path) = (runOps lower ops).map Prod.fst := by
      unfold getChangedFiles
      rw [List.map_map]
      rfl
    rw [hmap]
    exact hnd
